import Mathlib

/-!
Shallow embedding of the beam-search decoder `BaseModel.generator`
(`src/lmp/model.py`, lines 66-164) together with the external collaborators
it consumes (Tokenizer, the network's softmaxed forward pass).

Modelling conventions:
* Python ints become `Nat`, probabilities and scores become `ℚ`.
* `-torch.log` is an abstract parameter `nlog : ℚ → ℚ`: the decoder only
  ever feeds probabilities to it and adds/compares the results, so every
  theorem is stated for an arbitrary `nlog` (with the analytic facts the
  spec assumes about `-log`, such as nonnegativity on `(0, 1]`, taken as
  hypotheses where a claim needs them).
* The network plus the softmax of line 107 is an abstract function
  `Model : batch → beam index → position → vocab id → ℚ`; the decoder reads
  it exactly at the positions the source reads `batch_pred_y`.
* The `while True` loop is embedded with explicit fuel; the generator runs
  it with fuel `max_len`, and a theorem shows this fuel is never exhausted,
  which is the termination argument for the source loop.
* Python list indexing `xs[i]` is embedded with `getD`/`getLastD` defaults.
  Each such default is only reachable where the Python code would raise an
  `IndexError`; comments mark those places.
-/

namespace LMP

/-- A `(vocab_id, probability)` pair, the element type of the per-candidate
top-k buffer (`current_beam_top_value` entries, lines 109-112). -/
abbrev Entry := Nat × ℚ

/-- The tokenizer collaborator: `pad_token_id`, `eos_token_id`,
`vocab_size()`, `convert_sentences_to_ids` (per sentence) and
`convert_ids_to_sentences` (per id list). Its behaviour is abstract: the
repository's tokenizer implementation is outside the decoder module. -/
structure Tokenizer where
  pad_token_id : Nat
  eos_token_id : Nat
  vocab_size : Nat
  encode : String → List Nat
  decode : List Nat → String

/-- The softmaxed forward pass of the network, read as
`softmax(self(batch_x)[beam][pos])[vocab]` (lines 101, 106-107): given the
padded batch, a beam index, a position and a vocab id it yields the
probability the decoder works with. -/
abbrev Model := List (List Nat) → Nat → Nat → Nat → ℚ

/-- Index of the first buffer entry whose stored probability strictly
exceeds `p`: the break position of the loop in lines 118-121. -/
def firstExceed (p : ℚ) : List Entry → Option Nat
  | [] => none
  | e :: t => if p < e.2 then some 0 else (firstExceed p t).map (· + 1)

/-- The value of the Python variable `level` after the loop of lines
118-121: the first index whose probability exceeds `p`, minus one, or
`beam_width - 1` when every entry is at most `p`. -/
def offerLevel (p : ℚ) (buf : List Entry) : Nat :=
  match firstExceed p buf with
  | some j => j - 1
  | none => buf.length - 1

/-- One insertion into the per-candidate top-k buffer: the body of the
`for vocab_id in range(...)` loop, lines 114-127.  The guard is line 115;
the shift of lines 123-124 and the write of line 126 produce
`buf[1..lvl] ++ [(v, p)] ++ buf[lvl+1..]`.
On an empty buffer the source would raise `IndexError` (`top_value[0]` with
`beam_width = 0`); that state is unreachable in the generator. -/
def bufferOffer (buf : List Entry) (v : Nat) (p : ℚ) : List Entry :=
  if p < (buf.headD (0, 0)).2 then buf
  else
    let lvl := offerLevel p buf
    ((buf.drop 1).take lvl) ++ [(v, p)] ++ buf.drop (lvl + 1)

/-- The buffer's initial state: `beam_width` sentinel pairs
`(eos_token_id, 0)` (lines 109-112). -/
def initBuffer (bw eos : Nat) : List Entry :=
  List.replicate bw (eos, 0)

/-- The whole top-k selection for one candidate: offer every vocab id in
ascending order to the buffer (lines 109-127). -/
def topK (pred : Nat → ℚ) (n bw eos : Nat) : List Entry :=
  (List.range n).foldl (fun buf v => bufferOffer buf v (pred v)) (initBuffer bw eos)

/-- One selected expansion option: `beam_id`, `vocab_id`, `value`
(lines 146-150). -/
structure Sel where
  beam : Nat
  vocab : Nat
  value : ℚ
deriving DecidableEq, Repr

/-- The expression `top_value[beam_id][-1]` (lines 140, 144): the last (largest) entry of a
buffer.  The default is only reached on an empty buffer, where the source
would raise `IndexError`; in the generator every buffer scanned still holds
at least one entry. -/
def lastEntryD (eos : Nat) (buf : List Entry) : Entry :=
  buf.getLastD (eos, 0)

/-- The inner scan of the global selection (lines 134-144): over all beams,
keep the option minimising `nlog(probability) + candidate score`, starting
from the sentinel accumulator `(beam 0, eos, 999999999)` (lines 135-137).
A later beam replaces the accumulator only on a strictly smaller value. -/
def scanBeams (nlog : ℚ → ℚ) (eos : Nat) (tv : List (List Entry))
    (active : List (List Nat × ℚ)) : Sel :=
  (List.range tv.length).foldl
    (fun acc beamId =>
      let e := lastEntryD eos (tv.getD beamId [])
      let value := nlog e.2 + (active.getD beamId ([], 0)).2
      if value < acc.value then ⟨beamId, e.1, value⟩ else acc)
    ⟨0, eos, 999999999⟩

/-- One round of the global selection (the body of the loop at line 134):
scan all beams, record the winning option, and pop the winning beam's
buffer's last entry (line 152). -/
def selectRound (nlog : ℚ → ℚ) (eos : Nat) (active : List (List Nat × ℚ))
    (st : List (List Entry) × List Sel) : List (List Entry) × List Sel :=
  let r := scanBeams nlog eos st.1 active
  (st.1.modify List.dropLast r.beam, st.2 ++ [r])

/-- The global selection (lines 132-152): `beam_width` rounds of
`selectRound`, starting from the freshly built buffers and an empty
`final_top_value`. -/
def globalSelect (nlog : ℚ → ℚ) (eos bw : Nat) (tv : List (List Entry))
    (active : List (List Nat × ℚ)) : List Sel :=
  ((List.range bw).foldl (fun st _ => selectRound nlog eos active st) (tv, [])).2

/-- The call `torch.nn.utils.rnn.pad_sequence(...)` with `batch_first=True`
and `padding_value=pad`
(lines 96-99): right-pad every active sequence to the batch's maximum
length with the pad id. -/
def padBatch (pad : Nat) (active : List (List Nat × ℚ)) : List (List Nat) :=
  let maxLen := (active.map (fun c => c.1.length)).foldl max 0
  active.map (fun c => c.1 ++ List.replicate (maxLen - c.1.length) pad)

/-- The probability row one candidate reads:
`softmax(batch_pred_y[beam_id][len(active_ids[beam_id]) - 1])`
(lines 106-107), as a function of the vocab id. -/
def predFor (M : Model) (batch : List (List Nat)) (active : List (List Nat × ℚ))
    (beamId : Nat) : Nat → ℚ :=
  fun v => M batch beamId ((active.getD beamId ([], 0)).1.length - 1) v

/-- All per-candidate top-k buffers (`top_value`, lines 104-129), one per
active candidate. -/
def buildTV (M : Model) (tok : Tokenizer) (bw : Nat) (batch : List (List Nat))
    (active : List (List Nat × ℚ)) : List (List Entry) :=
  (List.range active.length).map
    (fun i => topK (predFor M batch active i) tok.vocab_size bw tok.eos_token_id)

/-- One full expansion step on the active candidates: batch and pad
(lines 96-99), model call plus softmax (lines 101-107), per-candidate top-k
(lines 109-129), global selection (lines 132-152) and the rebuilding of
`all_ids` / `all_ids_prob` (lines 154-159).  Candidate `i` of the result
extends the selected parent with the selected vocab id and carries the
selected combined value as its score. -/
def expandStep (nlog : ℚ → ℚ) (M : Model) (tok : Tokenizer) (bw : Nat)
    (active : List (List Nat × ℚ)) : List (List Nat × ℚ) :=
  let batch := padBatch tok.pad_token_id active
  let tv := buildTV M tok bw batch active
  (globalSelect nlog tok.eos_token_id bw tv active).map
    (fun s => ((active.getD s.beam ([], 0)).1 ++ [s.vocab], s.value))

/-- The partition of lines 85-90: each candidate stays active when its last
token differs from eos and its length is below `max_len`; otherwise it is
appended to `generate_result` while that list holds fewer than `beam_width`
entries, and dropped otherwise.  `ids.getLast? ≠ some eos` embeds
`all_ids[i][-1] != eos`; on an empty id list the source would raise
`IndexError` (`getLast?` returns `none` there). -/
def partStep (eos maxLen bw : Nat) (st : List (List Nat × ℚ) × List (List Nat))
    (c : List Nat × ℚ) : List (List Nat × ℚ) × List (List Nat) :=
  if c.1.getLast? ≠ some eos ∧ c.1.length < maxLen then (st.1 ++ [c], st.2)
  else if st.2.length < bw then (st.1, st.2 ++ [c.1])
  else st

/-- The partition loop itself: fold `partStep` over `all_ids`, starting from
an empty active working set and the current `generate_result`. -/
def partitionIds (eos maxLen bw : Nat) (all : List (List Nat × ℚ))
    (gen : List (List Nat)) : List (List Nat × ℚ) × List (List Nat) :=
  all.foldl (partStep eos maxLen bw) ([], gen)

/-- The `while True` loop of lines 80-159, with explicit fuel: partition,
exit when no candidate is active or `generate_result` is full (lines 92-94),
otherwise expand and continue.  `none` marks fuel exhaustion; the generator
runs the loop with fuel `max_len`, and `genLoop_isSome` below shows that
fuel always suffices, so the source loop terminates within `max_len`
iterations. -/
def genLoop (nlog : ℚ → ℚ) (M : Model) (tok : Tokenizer) (bw maxLen : Nat) :
    Nat → List (List Nat × ℚ) → List (List Nat) → Option (List (List Nat))
  | 0, all, gen =>
    if (partitionIds tok.eos_token_id maxLen bw all gen).1 = [] ∨
        bw ≤ (partitionIds tok.eos_token_id maxLen bw all gen).2.length then
      some (partitionIds tok.eos_token_id maxLen bw all gen).2
    else none
  | fuel + 1, all, gen =>
    if (partitionIds tok.eos_token_id maxLen bw all gen).1 = [] ∨
        bw ≤ (partitionIds tok.eos_token_id maxLen bw all gen).2.length then
      some (partitionIds tok.eos_token_id maxLen bw all gen).2
    else
      genLoop nlog M tok bw maxLen fuel
        (expandStep nlog M tok bw (partitionIds tok.eos_token_id maxLen bw all gen).1)
        (partitionIds tok.eos_token_id maxLen bw all gen).2

/-- The post-processing of lines 161-163: remove one trailing eos token when
present.  On an empty id list the source would raise `IndexError`
(`ids[-1]`); `getLast?` returns `none` there and the list is kept. -/
def stripEos (eos : Nat) (ids : List Nat) : List Nat :=
  if ids.getLast? = some eos then ids.dropLast else ids

/-- The two ways a run of the embedded generator can fail to return a value:
the explicit `ValueError` of lines 71-72, and exhaustion of the loop fuel
(a modelling artifact shown unreachable by `genLoop_isSome`). -/
inductive GenError where
  | invalidInput
  | fuelOut
deriving DecidableEq, Repr

/-- The decoder `BaseModel.generator` at the token-id level (lines 66-163): validate the
seed (lines 71-72), encode it with score `0` (lines 77-78), run the loop,
then strip one trailing eos from every result (lines 161-163). -/
def generatorIds (nlog : ℚ → ℚ) (M : Model) (tok : Tokenizer)
    (begin_of_sentence : String) (bw maxLen : Nat) :
    Except GenError (List (List Nat)) :=
  if begin_of_sentence.length = 0 then .error .invalidInput
  else
    match genLoop nlog M tok bw maxLen maxLen
        [(tok.encode begin_of_sentence, 0)] [] with
    | some gen => .ok (gen.map (stripEos tok.eos_token_id))
    | none => .error .fuelOut

/-- The decoder `BaseModel.generator` (line 164 included): decode every stripped id list
back to a sentence. -/
def generator (nlog : ℚ → ℚ) (M : Model) (tok : Tokenizer)
    (begin_of_sentence : String) (bw maxLen : Nat) :
    Except GenError (List String) :=
  match generatorIds nlog M tok begin_of_sentence bw maxLen with
  | .ok l => .ok (l.map tok.decode)
  | .error e => .error e

/-- Ascending-by-probability sortedness of a top-k buffer (the data-model
invariant of the spec's TopKBuffer). -/
def BufSorted (buf : List Entry) : Prop :=
  buf.Pairwise (fun a b => a.2 ≤ b.2)

/-! ### Top-k buffer lemmas -/

theorem bufferOffer_of_lt (buf : List Entry) (v : Nat) (p : ℚ)
    (h : p < (buf.headD (0, 0)).2) : bufferOffer buf v p = buf := by
  unfold bufferOffer
  rw [if_pos h]

theorem bufferOffer_nil (v : Nat) (p : ℚ) (h : ¬ p < 0) :
    bufferOffer [] v p = [(v, p)] := by
  simp [bufferOffer, h, offerLevel, firstExceed]

theorem bufferOffer_singleton (a : Entry) (v : Nat) (p : ℚ) (h : ¬ p < a.2) :
    bufferOffer [a] v p = [(v, p)] := by
  simp [bufferOffer, h, offerLevel, firstExceed]

theorem bufferOffer_cons_cons_lt (a b : Entry) (t : List Entry) (v : Nat) (p : ℚ)
    (h1 : ¬ p < a.2) (h2 : p < b.2) :
    bufferOffer (a :: b :: t) v p = (v, p) :: b :: t := by
  simp [bufferOffer, h1, h2, offerLevel, firstExceed]

theorem bufferOffer_cons_cons_ge (a b : Entry) (t : List Entry) (v : Nat) (p : ℚ)
    (h1 : ¬ p < a.2) (h2 : ¬ p < b.2) :
    bufferOffer (a :: b :: t) v p = b :: bufferOffer (b :: t) v p := by
  simp only [bufferOffer, List.headD, h1, h2, if_neg, offerLevel, firstExceed,
    if_neg (by exact h1), if_neg (by exact h2)]
  cases hfe : firstExceed p t with
  | none =>
    simp [hfe, List.drop_succ_cons, List.take_succ_cons,
      List.take_of_length_le (le_refl t.length)]
  | some j =>
    simp [hfe, List.drop_succ_cons, List.take_succ_cons]

theorem mem_bufferOffer (buf : List Entry) (v : Nat) (p : ℚ) :
    ∀ x ∈ bufferOffer buf v p, x = (v, p) ∨ x ∈ buf := by
  intro x hx
  unfold bufferOffer at hx
  split at hx
  · exact Or.inr hx
  · simp only [List.mem_append, List.mem_singleton] at hx
    rcases hx with (h | h) | h
    · exact Or.inr (List.mem_of_mem_drop (List.mem_of_mem_take h))
    · exact Or.inl h
    · exact Or.inr (List.mem_of_mem_drop h)

theorem bufferOffer_sorted :
    ∀ (buf : List Entry) (v : Nat) (p : ℚ), BufSorted buf →
      BufSorted (bufferOffer buf v p)
  | [], v, p, _ => by
    by_cases h : p < 0
    · rw [bufferOffer_of_lt _ _ _ (by simpa using h)]; exact List.Pairwise.nil
    · rw [bufferOffer_nil _ _ h]; exact List.pairwise_singleton _ _
  | [a], v, p, _ => by
    by_cases h : p < a.2
    · rw [bufferOffer_of_lt _ _ _ (by simpa using h)]
      exact List.pairwise_singleton _ _
    · rw [bufferOffer_singleton _ _ _ h]; exact List.pairwise_singleton _ _
  | a :: b :: t, v, p, h => by
    by_cases hpa : p < a.2
    · rw [bufferOffer_of_lt _ _ _ (by simpa using hpa)]; exact h
    · have htail : BufSorted (b :: t) := h.of_cons
      by_cases hpb : p < b.2
      · rw [bufferOffer_cons_cons_lt _ _ _ _ _ hpa hpb]
        refine List.Pairwise.cons ?_ htail
        intro x hx
        rcases List.mem_cons.1 hx with rfl | hx
        · exact le_of_lt hpb
        · exact le_trans (le_of_lt hpb) ((List.pairwise_cons.1 htail).1 x hx)
      · rw [bufferOffer_cons_cons_ge _ _ _ _ _ hpa hpb]
        refine List.Pairwise.cons ?_ (bufferOffer_sorted (b :: t) v p htail)
        intro x hx
        rcases mem_bufferOffer _ _ _ x hx with rfl | hx
        · exact not_lt.1 hpb
        · rcases List.mem_cons.1 hx with rfl | hx
          · exact le_refl _
          · exact (List.pairwise_cons.1 htail).1 x hx

theorem initBuffer_sorted (bw eos : Nat) : BufSorted (initBuffer bw eos) := by
  unfold BufSorted initBuffer
  exact List.pairwise_replicate.mpr (Or.inr (le_refl 0))

theorem topK_sorted (pred : Nat → ℚ) (n bw eos : Nat) :
    BufSorted (topK pred n bw eos) := by
  unfold topK
  have : ∀ (l : List Nat) (buf : List Entry), BufSorted buf →
      BufSorted (l.foldl (fun b v => bufferOffer b v (pred v)) buf) := by
    intro l
    induction l with
    | nil => intro buf h; exact h
    | cons x xs ih =>
      intro buf h
      exact ih _ (bufferOffer_sorted buf x (pred x) h)
  exact this _ _ (initBuffer_sorted bw eos)

/-- Offering a probability equal to the buffer's minimum evicts the minimum
entry and retains the newly offered pair. -/
theorem bufferOffer_eq_min_evicts (i v : Nat) (p : ℚ) (rest : List Entry)
    (h : ∀ e ∈ rest, p < e.2) :
    bufferOffer ((i, p) :: rest) v p = (v, p) :: rest := by
  cases rest with
  | nil => exact bufferOffer_singleton _ _ _ (lt_irrefl p)
  | cons b t =>
    exact bufferOffer_cons_cons_lt _ _ _ _ _ (lt_irrefl p) (h b (List.mem_cons_self b t))

/-- Capacity-one top-k: the buffer retains the single entry whose
probability is maximal, and among equal maxima the one with the greatest
vocab id (the scan of line 114 is ascending and an equal probability
replaces the retained entry). -/
theorem topK_one_char (pred : Nat → ℚ) (e : Nat) :
    ∀ k, (∀ v < k + 1, 0 ≤ pred v) →
      ∃ m, m < k + 1 ∧ topK pred (k + 1) 1 e = [(m, pred m)] ∧
        (∀ j < k + 1, pred j ≤ pred m) ∧ (∀ j < k + 1, pred j = pred m → j ≤ m) := by
  intro k
  induction k with
  | zero =>
    intro hp
    refine ⟨0, Nat.zero_lt_one, ?_, ?_, ?_⟩
    · show (List.range 1).foldl _ _ = _
      simp only [List.range_succ, List.range_zero, List.nil_append,
        List.foldl_cons, List.foldl_nil, initBuffer, List.replicate_one]
      exact bufferOffer_singleton _ _ _ (not_lt.2 (hp 0 Nat.zero_lt_one))
    · intro j hj; interval_cases j; exact le_refl _
    · intro j hj _; omega
  | succ k ih =>
    intro hp
    obtain ⟨m, hm, htop, hmax, htie⟩ := ih (fun v hv => hp v (by omega))
    have hstep : topK pred (k + 2) 1 e =
        bufferOffer (topK pred (k + 1) 1 e) (k + 1) (pred (k + 1)) := by
      unfold topK
      rw [List.range_succ, List.foldl_append, List.foldl_cons, List.foldl_nil]
    by_cases hlt : pred (k + 1) < pred m
    · refine ⟨m, by omega, ?_, ?_, ?_⟩
      · rw [hstep, htop, bufferOffer_of_lt]
        simpa using hlt
      · intro j hj
        rcases Nat.lt_succ_iff_lt_or_eq.1 hj with hj' | rfl
        · exact hmax j hj'
        · exact le_of_lt hlt
      · intro j hj hje
        rcases Nat.lt_succ_iff_lt_or_eq.1 hj with hj' | rfl
        · exact htie j hj' hje
        · exact absurd hje (ne_of_lt hlt)
    · refine ⟨k + 1, by omega, ?_, ?_, ?_⟩
      · rw [hstep, htop, bufferOffer_singleton _ _ _ hlt]
      · intro j hj
        rcases Nat.lt_succ_iff_lt_or_eq.1 hj with hj' | rfl
        · exact le_trans (hmax j hj') (not_lt.1 hlt)
        · exact le_refl _
      · intro j hj _; omega

/-! ### Global-selection lemmas -/

/-- The scan of lines 134-144 either keeps its sentinel accumulator or
returns a beam index within range, the vocab id of that beam's buffer's
last entry, and the combined value `nlog(probability) + beam score`. -/
theorem scanBeams_spec (nlog : ℚ → ℚ) (eos : Nat) (tv : List (List Entry))
    (active : List (List Nat × ℚ)) :
    scanBeams nlog eos tv active = ⟨0, eos, 999999999⟩ ∨
      ((scanBeams nlog eos tv active).beam < tv.length ∧
        ∃ p, (scanBeams nlog eos tv active).value =
          nlog p + (active.getD (scanBeams nlog eos tv active).beam ([], 0)).2) := by
  have key : ∀ (l : List Nat), (∀ b ∈ l, b < tv.length) → ∀ acc : Sel,
      (acc = ⟨0, eos, 999999999⟩ ∨ (acc.beam < tv.length ∧
        ∃ p, acc.value = nlog p + (active.getD acc.beam ([], 0)).2)) →
      (l.foldl (fun acc beamId =>
          let e := lastEntryD eos (tv.getD beamId [])
          let value := nlog e.2 + (active.getD beamId ([], 0)).2
          if value < acc.value then ⟨beamId, e.1, value⟩ else acc) acc
        = ⟨0, eos, 999999999⟩ ∨
        ((l.foldl (fun acc beamId =>
          let e := lastEntryD eos (tv.getD beamId [])
          let value := nlog e.2 + (active.getD beamId ([], 0)).2
          if value < acc.value then ⟨beamId, e.1, value⟩ else acc) acc).beam < tv.length ∧
          ∃ p, (l.foldl (fun acc beamId =>
            let e := lastEntryD eos (tv.getD beamId [])
            let value := nlog e.2 + (active.getD beamId ([], 0)).2
            if value < acc.value then ⟨beamId, e.1, value⟩ else acc) acc).value =
              nlog p + (active.getD (l.foldl (fun acc beamId =>
                let e := lastEntryD eos (tv.getD beamId [])
                let value := nlog e.2 + (active.getD beamId ([], 0)).2
                if value < acc.value then ⟨beamId, e.1, value⟩ else acc) acc).beam
                ([], 0)).2)) := by
    intro l
    induction l with
    | nil => intro _ acc hacc; exact hacc
    | cons x xs ih =>
      intro hl acc hacc
      rw [List.foldl_cons]
      refine ih (fun b hb => hl b (List.mem_cons_of_mem x hb)) _ ?_
      by_cases hx : nlog (lastEntryD eos (tv.getD x [])).2 + (active.getD x ([], 0)).2
          < acc.value
      · simp only [hx, if_pos]
        exact Or.inr ⟨hl x (List.mem_cons_self x xs), ⟨(lastEntryD eos (tv.getD x [])).2, rfl⟩⟩
      · simpa only [hx, if_neg, if_false] using hacc
  exact key (List.range tv.length) (fun b hb => List.mem_range.1 hb) _ (Or.inl rfl)

theorem scanBeams_beam_lt (nlog : ℚ → ℚ) (eos : Nat) (tv : List (List Entry))
    (active : List (List Nat × ℚ)) (h : 0 < tv.length) :
    (scanBeams nlog eos tv active).beam < tv.length := by
  rcases scanBeams_spec nlog eos tv active with heq | ⟨hlt, _⟩
  · rw [heq]; exact h
  · exact hlt

/-- The global selection returns exactly `beam_width` options (the loop of
line 134 runs `beam_width` rounds and records one option per round). -/
theorem globalSelect_length (nlog : ℚ → ℚ) (eos bw : Nat) (tv : List (List Entry))
    (active : List (List Nat × ℚ)) :
    (globalSelect nlog eos bw tv active).length = bw := by
  unfold globalSelect
  have key : ∀ (l : List Nat) (st : List (List Entry) × List Sel),
      ((l.foldl (fun st _ => selectRound nlog eos active st) st).2).length =
        st.2.length + l.length := by
    intro l
    induction l with
    | nil => intro st; simp
    | cons x xs ih =>
      intro st
      rw [List.foldl_cons, ih]
      simp [selectRound]
      omega
  rw [key]
  simp

/-- Every selected option has its beam index within the initial buffer
list's range, and its value is either the untouched sentinel `999999999` or
`nlog(probability) + score of the selected beam`. -/
theorem globalSelect_sel (nlog : ℚ → ℚ) (eos bw : Nat) (tv : List (List Entry))
    (active : List (List Nat × ℚ)) :
    ∀ s ∈ globalSelect nlog eos bw tv active,
      s = ⟨0, eos, 999999999⟩ ∨ (s.beam < tv.length ∧
        ∃ p, s.value = nlog p + (active.getD s.beam ([], 0)).2) := by
  unfold globalSelect
  have key : ∀ (l : List Nat) (st : List (List Entry) × List Sel),
      st.1.length = tv.length →
      (∀ s ∈ st.2, s = ⟨0, eos, 999999999⟩ ∨ (s.beam < tv.length ∧
        ∃ p, s.value = nlog p + (active.getD s.beam ([], 0)).2)) →
      ∀ s ∈ (l.foldl (fun st _ => selectRound nlog eos active st) st).2,
        s = ⟨0, eos, 999999999⟩ ∨ (s.beam < tv.length ∧
          ∃ p, s.value = nlog p + (active.getD s.beam ([], 0)).2) := by
    intro l
    induction l with
    | nil => intro st _ hst; exact hst
    | cons x xs ih =>
      intro st hlen hst
      rw [List.foldl_cons]
      refine ih _ ?_ ?_
      · simpa [selectRound] using hlen
      · intro s hs
        simp only [selectRound, List.mem_append, List.mem_singleton] at hs
        rcases hs with hs | rfl
        · exact hst s hs
        · rcases scanBeams_spec nlog eos st.1 active with heq | ⟨hlt, hp⟩
          · exact Or.inl heq
          · exact Or.inr ⟨hlen ▸ hlt, hp⟩
  intro s hs
  exact key (List.range bw) (tv, []) rfl (by intro s hs; cases hs) s hs

/-! ### Expansion-step lemmas -/

theorem buildTV_length (M : Model) (tok : Tokenizer) (bw : Nat)
    (batch : List (List Nat)) (active : List (List Nat × ℚ)) :
    (buildTV M tok bw batch active).length = active.length := by
  simp [buildTV]

/-- The expansion of lines 155-159 produces exactly `beam_width` new
candidates. -/
theorem expandStep_length (nlog : ℚ → ℚ) (M : Model) (tok : Tokenizer) (bw : Nat)
    (active : List (List Nat × ℚ)) :
    (expandStep nlog M tok bw active).length = bw := by
  unfold expandStep
  rw [List.length_map, globalSelect_length]

/-- Every candidate built by the expansion extends a parent drawn from the
active list by one token, and carries either the sentinel value or
`nlog(probability) + parent score` as its score. -/
theorem expandStep_mem (nlog : ℚ → ℚ) (M : Model) (tok : Tokenizer) (bw : Nat)
    (active : List (List Nat × ℚ)) (hne : active ≠ []) :
    ∀ c ∈ expandStep nlog M tok bw active, ∃ i, i < active.length ∧ ∃ v,
      c.1 = (active.getD i ([], 0)).1 ++ [v] ∧
      (c.2 = 999999999 ∨ ∃ p, c.2 = nlog p + (active.getD i ([], 0)).2) := by
  intro c hc
  unfold expandStep at hc
  rcases List.mem_map.1 hc with ⟨s, hs, rfl⟩
  rcases globalSelect_sel nlog tok.eos_token_id bw _ active s hs with rfl | ⟨hlt, p, hp⟩
  · exact ⟨0, List.length_pos.2 hne, tok.eos_token_id, rfl, Or.inl rfl⟩
  · rw [buildTV_length] at hlt
    exact ⟨s.beam, hlt, s.vocab, rfl, Or.inr ⟨p, hp⟩⟩

/-- Every entry of a top-k buffer is either the untouched sentinel
`(eos, 0)` or the pair `(v, pred v)` for a scanned vocab id `v`: the buffer
only ever stores the offered model probabilities, keyed by their vocab id. -/
theorem mem_topK (pred : Nat → ℚ) (n bw eos : Nat) :
    ∀ x ∈ topK pred n bw eos, x = (eos, 0) ∨ ∃ v, v < n ∧ x = (v, pred v) := by
  unfold topK
  have key : ∀ (l : List Nat) (buf : List Entry),
      (∀ x ∈ buf, x = (eos, 0) ∨ ∃ v, v < n ∧ x = (v, pred v)) →
      (∀ v ∈ l, v < n) →
      ∀ x ∈ l.foldl (fun b v => bufferOffer b v (pred v)) buf,
        x = (eos, 0) ∨ ∃ v, v < n ∧ x = (v, pred v) := by
    intro l
    induction l with
    | nil => intro buf hbuf _ x hx; exact hbuf x hx
    | cons y ys ih =>
      intro buf hbuf hl x hx
      rw [List.foldl_cons] at hx
      refine ih _ ?_ (fun v hv => hl v (List.mem_cons_of_mem y hv)) x hx
      intro z hz
      rcases mem_bufferOffer buf y (pred y) z hz with rfl | hz'
      · exact Or.inr ⟨y, hl y (List.mem_cons_self y ys), rfl⟩
      · exact hbuf z hz'
  intro x hx
  refine key (List.range n) (initBuffer bw eos) ?_ (fun v hv => List.mem_range.1 hv) x hx
  intro z hz
  exact Or.inl (List.eq_of_mem_replicate hz)

/-- The scanned last entry of a buffer is the sentinel pair (on an empty
buffer, where the source would raise) or a member of the buffer. -/
theorem lastEntryD_cases (eos : Nat) (buf : List Entry) :
    lastEntryD eos buf = (eos, 0) ∨ lastEntryD eos buf ∈ buf := by
  cases buf with
  | nil => exact Or.inl rfl
  | cons a t => exact Or.inr (List.mem_of_mem_getLast? rfl)

/-- Popping one buffer (line 152) only removes entries: membership in any
buffer of the modified list implies membership in the original buffer. -/
theorem getD_modify_dropLast_subset (l : List (List Entry)) (i j : Nat) :
    ∀ x ∈ (l.modify List.dropLast i).getD j [], x ∈ l.getD j [] := by
  intro x hx
  rw [List.getD_eq_getElem?_getD, List.getElem?_modify] at hx
  rw [List.getD_eq_getElem?_getD]
  cases h : l[j]? with
  | none =>
    rw [h] at hx
    simp at hx
  | some a =>
    rw [h] at hx
    have hx' : x ∈ (if i = j then a.dropLast else a) := hx
    show x ∈ a
    split at hx'
    · exact List.mem_of_mem_dropLast hx'
    · exact hx'

/-- The buffer list built at lines 104-129 holds, at each in-range beam
index, exactly that candidate's top-k buffer. -/
theorem buildTV_getD (M : Model) (tok : Tokenizer) (bw : Nat)
    (batch : List (List Nat)) (active : List (List Nat × ℚ)) (i : Nat)
    (hi : i < active.length) :
    (buildTV M tok bw batch active).getD i [] =
      topK (predFor M batch active i) tok.vocab_size bw tok.eos_token_id := by
  have h' : i < (buildTV M tok bw batch active).length := by
    rw [buildTV_length]
    exact hi
  rw [List.getD_eq_getElem _ _ h']
  unfold buildTV
  simp only [List.getElem_map, List.getElem_range]

/-- The scan of lines 134-144 either keeps its sentinel accumulator or
returns, for some in-range beam index, exactly that beam's buffer's last
entry: its vocab id as the selected token and `nlog` of its probability
plus the beam's score as the selected value. -/
theorem scanBeams_entry (nlog : ℚ → ℚ) (eos : Nat) (tv : List (List Entry))
    (active : List (List Nat × ℚ)) :
    scanBeams nlog eos tv active = ⟨0, eos, 999999999⟩ ∨
      ∃ j, j < tv.length ∧ scanBeams nlog eos tv active =
        ⟨j, (lastEntryD eos (tv.getD j [])).1,
          nlog (lastEntryD eos (tv.getD j [])).2 + (active.getD j ([], 0)).2⟩ := by
  have key : ∀ (l : List Nat), (∀ b ∈ l, b < tv.length) → ∀ acc : Sel,
      (acc = ⟨0, eos, 999999999⟩ ∨ ∃ j, j < tv.length ∧ acc =
        ⟨j, (lastEntryD eos (tv.getD j [])).1,
          nlog (lastEntryD eos (tv.getD j [])).2 + (active.getD j ([], 0)).2⟩) →
      (l.foldl (fun acc beamId =>
          let e := lastEntryD eos (tv.getD beamId [])
          let value := nlog e.2 + (active.getD beamId ([], 0)).2
          if value < acc.value then ⟨beamId, e.1, value⟩ else acc) acc
        = ⟨0, eos, 999999999⟩ ∨ ∃ j, j < tv.length ∧
          l.foldl (fun acc beamId =>
            let e := lastEntryD eos (tv.getD beamId [])
            let value := nlog e.2 + (active.getD beamId ([], 0)).2
            if value < acc.value then ⟨beamId, e.1, value⟩ else acc) acc =
          ⟨j, (lastEntryD eos (tv.getD j [])).1,
            nlog (lastEntryD eos (tv.getD j [])).2 + (active.getD j ([], 0)).2⟩) := by
    intro l
    induction l with
    | nil => intro _ acc hacc; exact hacc
    | cons x xs ih =>
      intro hl acc hacc
      rw [List.foldl_cons]
      refine ih (fun b hb => hl b (List.mem_cons_of_mem x hb)) _ ?_
      by_cases hx : nlog (lastEntryD eos (tv.getD x [])).2 + (active.getD x ([], 0)).2
          < acc.value
      · simp only [hx, if_pos]
        exact Or.inr ⟨x, hl x (List.mem_cons_self x xs), rfl⟩
      · simpa only [hx, if_neg, if_false] using hacc
  exact key (List.range tv.length) (fun b hb => List.mem_range.1 hb) _ (Or.inl rfl)

/-- Every selected option is the untouched sentinel or carries the vocab id
and probability of one entry of the scanned buffers; `P` is any property of
entries that the initial buffers satisfy, holds of the sentinel pair, and
(being per-entry) survives the pops of line 152. -/
theorem globalSelect_entry (nlog : ℚ → ℚ) (eos bw : Nat) (tv : List (List Entry))
    (active : List (List Nat × ℚ)) (P : Nat → Entry → Prop)
    (hP : ∀ j, ∀ x ∈ tv.getD j [], P j x) (hsent : ∀ j, P j (eos, 0)) :
    ∀ s ∈ globalSelect nlog eos bw tv active,
      s = ⟨0, eos, 999999999⟩ ∨ ∃ j e, j < tv.length ∧ P j e ∧
        s = ⟨j, e.1, nlog e.2 + (active.getD j ([], 0)).2⟩ := by
  unfold globalSelect
  have key : ∀ (l : List Nat) (st : List (List Entry) × List Sel),
      st.1.length = tv.length →
      (∀ j, ∀ x ∈ st.1.getD j [], P j x) →
      (∀ s ∈ st.2, s = ⟨0, eos, 999999999⟩ ∨ ∃ j e, j < tv.length ∧ P j e ∧
        s = ⟨j, e.1, nlog e.2 + (active.getD j ([], 0)).2⟩) →
      ∀ s ∈ (l.foldl (fun st _ => selectRound nlog eos active st) st).2,
        s = ⟨0, eos, 999999999⟩ ∨ ∃ j e, j < tv.length ∧ P j e ∧
          s = ⟨j, e.1, nlog e.2 + (active.getD j ([], 0)).2⟩ := by
    intro l
    induction l with
    | nil => intro st _ _ hst; exact hst
    | cons x xs ih =>
      intro st hlen hent hst
      rw [List.foldl_cons]
      refine ih _ ?_ ?_ ?_
      · simpa [selectRound] using hlen
      · intro j x' hx'
        exact hent j x' (getD_modify_dropLast_subset st.1 _ j x' hx')
      · intro s hs
        simp only [selectRound, List.mem_append, List.mem_singleton] at hs
        rcases hs with hs | rfl
        · exact hst s hs
        · rcases scanBeams_entry nlog eos st.1 active with heq | ⟨j, hj, heq⟩
          · exact Or.inl heq
          · refine Or.inr ⟨j, lastEntryD eos (st.1.getD j []), hlen ▸ hj, ?_, heq⟩
            rcases lastEntryD_cases eos (st.1.getD j []) with he | he
            · rw [he]
              exact hsent j
            · exact hent j _ he
  intro s hs
  exact key (List.range bw) (tv, []) rfl hP (by intro s hs; cases hs) s hs

/-! ### Partition lemmas -/

/-- Case analysis on one step of the partition loop (lines 85-90). -/
theorem partStep_cases (eos maxLen bw : Nat)
    (st : List (List Nat × ℚ) × List (List Nat)) (c : List Nat × ℚ) :
    ((c.1.getLast? ≠ some eos ∧ c.1.length < maxLen) ∧
      partStep eos maxLen bw st c = (st.1 ++ [c], st.2)) ∨
    (¬(c.1.getLast? ≠ some eos ∧ c.1.length < maxLen) ∧ st.2.length < bw ∧
      partStep eos maxLen bw st c = (st.1, st.2 ++ [c.1])) ∨
    (¬(c.1.getLast? ≠ some eos ∧ c.1.length < maxLen) ∧ ¬ st.2.length < bw ∧
      partStep eos maxLen bw st c = st) := by
  unfold partStep
  by_cases h1 : c.1.getLast? ≠ some eos ∧ c.1.length < maxLen
  · exact Or.inl ⟨h1, by rw [if_pos h1]⟩
  · by_cases h2 : st.2.length < bw
    · exact Or.inr (Or.inl ⟨h1, h2, by rw [if_neg h1, if_pos h2]⟩)
    · exact Or.inr (Or.inr ⟨h1, h2, by rw [if_neg h1, if_neg h2]⟩)

/-- Candidates kept active by the partition come from `all_ids` and satisfy
the activity condition of line 86. -/
theorem partition_active (eos maxLen bw : Nat) :
    ∀ (all : List (List Nat × ℚ)) (st : List (List Nat × ℚ) × List (List Nat)),
      ∀ c ∈ (all.foldl (partStep eos maxLen bw) st).1,
        c ∈ st.1 ∨ (c ∈ all ∧ c.1.getLast? ≠ some eos ∧ c.1.length < maxLen) := by
  intro all
  induction all with
  | nil => intro st c hc; exact Or.inl hc
  | cons x xs ih =>
    intro st c hc
    rw [List.foldl_cons] at hc
    rcases ih (partStep eos maxLen bw st x) c hc with hmem | ⟨hmem, hcond⟩
    · rcases partStep_cases eos maxLen bw st x with ⟨hx, heq⟩ | ⟨_, _, heq⟩ | ⟨_, _, heq⟩
      · rw [heq] at hmem
        rcases List.mem_append.1 hmem with h | h
        · exact Or.inl h
        · rw [List.mem_singleton] at h
          exact Or.inr ⟨h ▸ List.mem_cons_self x xs, h ▸ hx⟩
      · rw [heq] at hmem; exact Or.inl hmem
      · rw [heq] at hmem; exact Or.inl hmem
    · exact Or.inr ⟨List.mem_cons_of_mem x hmem, hcond⟩

/-- Sequences in the `generate_result` produced by one partition pass come
from the incoming `generate_result` or from `all_ids`. -/
theorem partition_gen (eos maxLen bw : Nat) :
    ∀ (all : List (List Nat × ℚ)) (st : List (List Nat × ℚ) × List (List Nat)),
      ∀ ids ∈ (all.foldl (partStep eos maxLen bw) st).2,
        ids ∈ st.2 ∨ ∃ c ∈ all, ids = c.1 := by
  intro all
  induction all with
  | nil => intro st ids h; exact Or.inl h
  | cons x xs ih =>
    intro st ids h
    rw [List.foldl_cons] at h
    rcases ih (partStep eos maxLen bw st x) ids h with hmem | ⟨c, hc, rfl⟩
    · rcases partStep_cases eos maxLen bw st x with ⟨_, heq⟩ | ⟨_, _, heq⟩ | ⟨_, _, heq⟩
      · rw [heq] at hmem; exact Or.inl hmem
      · rw [heq] at hmem
        rcases List.mem_append.1 hmem with h' | h'
        · exact Or.inl h'
        · rw [List.mem_singleton] at h'
          exact Or.inr ⟨x, List.mem_cons_self x xs, h'⟩
      · rw [heq] at hmem; exact Or.inl hmem
    · exact Or.inr ⟨c, List.mem_cons_of_mem x hc, rfl⟩

/-- The partition never removes previously stored results: the outgoing
`generate_result` extends the incoming one. -/
theorem partition_gen_extend (eos maxLen bw : Nat) :
    ∀ (all : List (List Nat × ℚ)) (st : List (List Nat × ℚ) × List (List Nat)),
      ∃ extra, (all.foldl (partStep eos maxLen bw) st).2 = st.2 ++ extra := by
  intro all
  induction all with
  | nil => intro st; exact ⟨[], (List.append_nil _).symm⟩
  | cons x xs ih =>
    intro st
    rw [List.foldl_cons]
    obtain ⟨extra, hextra⟩ := ih (partStep eos maxLen bw st x)
    rcases partStep_cases eos maxLen bw st x with ⟨_, heq⟩ | ⟨_, _, heq⟩ | ⟨_, _, heq⟩
    · exact ⟨extra, by rw [hextra, heq]⟩
    · exact ⟨[x.1] ++ extra, by rw [hextra, heq, List.append_assoc]⟩
    · exact ⟨extra, by rw [hextra, heq]⟩

/-- The active working set only grows along the partition fold. -/
theorem partition_active_extend (eos maxLen bw : Nat) :
    ∀ (all : List (List Nat × ℚ)) (st : List (List Nat × ℚ) × List (List Nat)),
      ∃ extra, (all.foldl (partStep eos maxLen bw) st).1 = st.1 ++ extra := by
  intro all
  induction all with
  | nil => intro st; exact ⟨[], (List.append_nil _).symm⟩
  | cons x xs ih =>
    intro st
    rw [List.foldl_cons]
    obtain ⟨extra, hextra⟩ := ih (partStep eos maxLen bw st x)
    rcases partStep_cases eos maxLen bw st x with ⟨_, heq⟩ | ⟨_, _, heq⟩ | ⟨_, _, heq⟩
    · exact ⟨[x] ++ extra, by rw [hextra, heq, List.append_assoc]⟩
    · exact ⟨extra, by rw [hextra, heq]⟩
    · exact ⟨extra, by rw [hextra, heq]⟩

/-- A result is appended only while `generate_result` holds fewer than
`beam_width` entries (line 89), so the bound `≤ beam_width` is preserved. -/
theorem partition_gen_le (eos maxLen bw : Nat) :
    ∀ (all : List (List Nat × ℚ)) (st : List (List Nat × ℚ) × List (List Nat)),
      st.2.length ≤ bw → (all.foldl (partStep eos maxLen bw) st).2.length ≤ bw := by
  intro all
  induction all with
  | nil => intro st h; exact h
  | cons x xs ih =>
    intro st h
    rw [List.foldl_cons]
    refine ih _ ?_
    rcases partStep_cases eos maxLen bw st x with ⟨_, heq⟩ | ⟨_, hlt, heq⟩ | ⟨_, _, heq⟩
    · rw [heq]; exact h
    · rw [heq]; simpa using hlt
    · rw [heq]; exact h

/-- If every candidate fails the activity condition, the partition keeps no
candidate active. -/
theorem partition_active_nil (eos maxLen bw : Nat) :
    ∀ (all : List (List Nat × ℚ)) (st : List (List Nat × ℚ) × List (List Nat)),
      st.1 = [] → (∀ c ∈ all, ¬(c.1.getLast? ≠ some eos ∧ c.1.length < maxLen)) →
      (all.foldl (partStep eos maxLen bw) st).1 = [] := by
  intro all
  induction all with
  | nil => intro st h _; exact h
  | cons x xs ih =>
    intro st h hall
    rw [List.foldl_cons]
    refine ih _ ?_ (fun c hc => hall c (List.mem_cons_of_mem x hc))
    rcases partStep_cases eos maxLen bw st x with ⟨hx, _⟩ | ⟨_, _, heq⟩ | ⟨_, _, heq⟩
    · exact absurd hx (hall x (List.mem_cons_self x xs))
    · rw [heq]; exact h
    · rw [heq]; exact h

/-- With `beam_width ≥ 1`, if the partition of a nonempty `all_ids` keeps
no candidate active, then its `generate_result` is nonempty: the first
candidate is either kept active, or stored, or dropped because the result
list is already full (hence nonempty). -/
theorem partition_nonempty (eos maxLen bw : Nat) (hbw : 1 ≤ bw) :
    ∀ (all : List (List Nat × ℚ)) (gen : List (List Nat)), all ≠ [] →
      (all.foldl (partStep eos maxLen bw) ([], gen)).1 = [] →
      (all.foldl (partStep eos maxLen bw) ([], gen)).2 ≠ [] := by
  intro all gen hne hact
  cases all with
  | nil => exact absurd rfl hne
  | cons x xs =>
    rw [List.foldl_cons]
    rw [List.foldl_cons] at hact
    rcases partStep_cases eos maxLen bw ([], gen) x with ⟨_, heq⟩ | ⟨_, _, heq⟩ | ⟨_, hlt, heq⟩
    · exfalso
      obtain ⟨extra, hextra⟩ :=
        partition_active_extend eos maxLen bw xs (partStep eos maxLen bw ([], gen) x)
      rw [hextra, heq] at hact
      simp at hact
    · obtain ⟨extra, hextra⟩ :=
        partition_gen_extend eos maxLen bw xs (partStep eos maxLen bw ([], gen) x)
      rw [hextra, heq]
      simp
    · obtain ⟨extra, hextra⟩ :=
        partition_gen_extend eos maxLen bw xs (partStep eos maxLen bw ([], gen) x)
      rw [hextra, heq]
      have hgen : gen ≠ [] := by
        intro h
        rw [h] at hlt
        exact hlt (by simpa using hbw)
      simp [hgen]

/-- With `beam_width = 0` no result is ever stored (line 89's guard is
`0 < 0`). -/
theorem partition_gen_bw0 (eos maxLen : Nat) :
    ∀ (all : List (List Nat × ℚ)) (st : List (List Nat × ℚ) × List (List Nat)),
      (all.foldl (partStep eos maxLen 0) st).2 = st.2 := by
  intro all
  induction all with
  | nil => intro st; rfl
  | cons x xs ih =>
    intro st
    rw [List.foldl_cons, ih]
    rcases partStep_cases eos maxLen 0 st x with ⟨_, heq⟩ | ⟨_, hlt, _⟩ | ⟨_, _, heq⟩
    · rw [heq]
    · exact absurd hlt (by omega)
    · rw [heq]

/-! ### Decode-loop lemmas -/

/-- A `getD` at an in-range index is a member of the list. -/
theorem getD_mem_of_lt {α : Type} (l : List α) (i : Nat) (d : α) (h : i < l.length) :
    l.getD i d ∈ l := by
  rw [List.getD_eq_getElem l d h]
  exact List.getElem_mem h

/-- The stored `generate_result` never exceeds `beam_width` entries across
the loop. -/
theorem genLoop_length_le (nlog : ℚ → ℚ) (M : Model) (tok : Tokenizer) (bw maxLen : Nat) :
    ∀ (fuel : Nat) (all : List (List Nat × ℚ)) (gen out : List (List Nat)),
      gen.length ≤ bw → genLoop nlog M tok bw maxLen fuel all gen = some out →
      out.length ≤ bw := by
  intro fuel
  induction fuel with
  | zero =>
    intro all gen out hgen h
    unfold genLoop at h
    split at h
    · cases h
      exact partition_gen_le _ _ _ all ([], gen) hgen
    · cases h
  | succ fuel ih =>
    intro all gen out hgen h
    unfold genLoop at h
    split at h
    · cases h
      exact partition_gen_le _ _ _ all ([], gen) hgen
    · exact ih _ _ _ (partition_gen_le _ _ _ all ([], gen) hgen) h

/-- The candidates of `all_ids` all have the same length (they are built in
lockstep, one token per iteration), and once that common length reaches
`max_len` the loop exits; hence fuel `ℓ + fuel ≥ max_len` suffices. -/
theorem genLoop_isSome (nlog : ℚ → ℚ) (M : Model) (tok : Tokenizer) (bw maxLen : Nat) :
    ∀ (fuel ℓ : Nat) (all : List (List Nat × ℚ)) (gen : List (List Nat)),
      (∀ c ∈ all, c.1.length = ℓ) → maxLen ≤ ℓ + fuel →
      (genLoop nlog M tok bw maxLen fuel all gen).isSome := by
  intro fuel
  induction fuel with
  | zero =>
    intro ℓ all gen hall hfuel
    unfold genLoop
    rw [if_pos]
    · rfl
    · left
      refine partition_active_nil _ _ _ all ([], gen) rfl ?_
      intro c hc hcond
      have := hall c hc
      omega
  | succ fuel ih =>
    intro ℓ all gen hall hfuel
    unfold genLoop
    split
    · rfl
    · rename_i hnot
      have hact : (partitionIds tok.eos_token_id maxLen bw all gen).1 ≠ [] := by
        intro h
        exact hnot (Or.inl h)
      refine ih (ℓ + 1) _ _ ?_ (by omega)
      intro c hc
      obtain ⟨i, hi, v, hc1, _⟩ :=
        expandStep_mem nlog M tok bw (partitionIds tok.eos_token_id maxLen bw all gen).1
          hact c hc
      have hmem := getD_mem_of_lt _ i ([], (0 : ℚ)) hi
      rcases partition_active tok.eos_token_id maxLen bw all ([], gen) _ hmem with
        habs | ⟨hmem', _, _⟩
      · cases habs
      · rw [hc1]
        rw [List.length_append, hall _ hmem']
        rfl

/-- With at least one beam, the loop's result list is never empty: a
candidate leaves the active set only by being stored (or dropped because
the result list is already nonempty-full), and the expansion always emits
`beam_width ≥ 1` candidates. -/
theorem genLoop_ne_nil (nlog : ℚ → ℚ) (M : Model) (tok : Tokenizer) (bw maxLen : Nat)
    (hbw : 1 ≤ bw) :
    ∀ (fuel : Nat) (all : List (List Nat × ℚ)) (gen out : List (List Nat)),
      all ≠ [] → genLoop nlog M tok bw maxLen fuel all gen = some out → out ≠ [] := by
  intro fuel
  induction fuel with
  | zero =>
    intro all gen out hne h
    unfold genLoop at h
    split at h
    · cases h
      rename_i hexit
      rcases hexit with hact | hlen
      · exact partition_nonempty _ _ _ hbw all gen hne hact
      · intro h0
        rw [h0] at hlen
        simp at hlen
        omega
    · cases h
  | succ fuel ih =>
    intro all gen out hne h
    unfold genLoop at h
    split at h
    · cases h
      rename_i hexit
      rcases hexit with hact | hlen
      · exact partition_nonempty _ _ _ hbw all gen hne hact
      · intro h0
        rw [h0] at hlen
        simp at hlen
        omega
    · refine ih _ _ _ ?_ h
      intro h0
      have := expandStep_length nlog M tok bw
        (partitionIds tok.eos_token_id maxLen bw all gen).1
      rw [h0] at this
      simp at this
      omega

/-- Generic safety argument for the loop: any per-sequence property that
holds of the seed, is preserved by extending an incomplete candidate by one
token, and holds of every stored result, holds of the loop's output. -/
theorem genLoop_inv (nlog : ℚ → ℚ) (M : Model) (tok : Tokenizer) (bw maxLen : Nat)
    (Q : List Nat → Prop)
    (hstep : ∀ (ids : List Nat) (v : Nat), ids.getLast? ≠ some tok.eos_token_id →
      ids.length < maxLen → Q ids → Q (ids ++ [v])) :
    ∀ (fuel : Nat) (all : List (List Nat × ℚ)) (gen out : List (List Nat)),
      (∀ c ∈ all, Q c.1) → (∀ ids ∈ gen, Q ids) →
      genLoop nlog M tok bw maxLen fuel all gen = some out → ∀ ids ∈ out, Q ids := by
  intro fuel
  induction fuel with
  | zero =>
    intro all gen out hall hgen h ids hids
    unfold genLoop at h
    split at h
    · cases h
      rcases partition_gen tok.eos_token_id maxLen bw all ([], gen) ids hids with
        hmem | ⟨c, hc, rfl⟩
      · exact hgen ids hmem
      · exact hall c hc
    · cases h
  | succ fuel ih =>
    intro all gen out hall hgen h ids hids
    unfold genLoop at h
    split at h
    · cases h
      rcases partition_gen tok.eos_token_id maxLen bw all ([], gen) ids hids with
        hmem | ⟨c, hc, rfl⟩
      · exact hgen ids hmem
      · exact hall c hc
    · rename_i hnot
      have hact : (partitionIds tok.eos_token_id maxLen bw all gen).1 ≠ [] := by
        intro h0
        exact hnot (Or.inl h0)
      refine ih _ _ _ ?_ ?_ h ids hids
      · intro c hc
        obtain ⟨i, hi, v, hc1, _⟩ :=
          expandStep_mem nlog M tok bw (partitionIds tok.eos_token_id maxLen bw all gen).1
            hact c hc
        have hmem := getD_mem_of_lt _ i ([], (0 : ℚ)) hi
        rcases partition_active tok.eos_token_id maxLen bw all ([], gen) _ hmem with
          habs | ⟨hmem', hlast, hlen⟩
        · cases habs
        · rw [hc1]
          exact hstep _ v hlast hlen (hall _ hmem')
      · intro ids' hids'
        rcases partition_gen tok.eos_token_id maxLen bw all ([], gen) ids' hids' with
          hmem | ⟨c, hc, rfl⟩
        · exact hgen ids' hmem
        · exact hall c hc

/-- Successful runs of the embedded generator come from a successful loop
run on the encoded seed, with one trailing eos stripped from every result. -/
theorem generatorIds_ok (nlog : ℚ → ℚ) (M : Model) (tok : Tokenizer) (s : String)
    (bw maxLen : Nat) (l : List (List Nat))
    (h : generatorIds nlog M tok s bw maxLen = .ok l) :
    s.length ≠ 0 ∧ ∃ gen, genLoop nlog M tok bw maxLen maxLen [(tok.encode s, 0)] [] = some gen ∧
      l = gen.map (stripEos tok.eos_token_id) := by
  unfold generatorIds at h
  split at h
  · cases h
  · rename_i hs
    split at h
    · rename_i gen hloop
      cases h
      exact ⟨hs, gen, hloop, rfl⟩
    · cases h

/-! ### Concrete instances used to exercise the theorems -/

/-- A four-token vocabulary (`pad = 0`, `eos = 1`) whose encoder maps every
sentence to `[2, 1, 1]` — a sequence ending in two eos tokens. -/
def tokDoubleEos : Tokenizer := ⟨0, 1, 4, fun _ => [2, 1, 1], fun _ => "s"⟩

/-- A four-token vocabulary (`pad = 0`, `eos = 1`) whose encoder maps every
sentence to the eos-free sequence `[2, 3, 2]`. -/
def tokPlain : Tokenizer := ⟨0, 1, 4, fun _ => [2, 3, 2], fun _ => "s"⟩

/-- A model that assigns probability `1/2` to every vocabulary id. -/
def constModel : Model := fun _ _ _ _ => mkRat 1 2

/-- A computable stand-in for `-log`, nonnegative on `(0, 1]`. -/
def nlogLin : ℚ → ℚ := fun p => 1 - p

/-! ### Claim theorems -/

/-- C1: every call to the decoder with `beam_width ≥ 1` and `max_len ≥ 1`
that returns normally returns at most `beam_width` decoded strings: a
completed candidate is stored only while the result holds fewer than
`beam_width` entries, and the loop halts once the result is full or no
candidate is active. -/
theorem c1_result_length_le_beam_width (nlog : ℚ → ℚ) (M : Model) (tok : Tokenizer)
    (s : String) (bw maxLen : Nat) (_hbw : 1 ≤ bw) (_hml : 1 ≤ maxLen)
    (out : List String) (h : generator nlog M tok s bw maxLen = .ok out) :
    out.length ≤ bw := by
  unfold generator at h
  split at h
  · rename_i l hids
    cases h
    obtain ⟨-, gen, hloop, rfl⟩ := generatorIds_ok nlog M tok s bw maxLen l hids
    rw [List.length_map, List.length_map]
    exact genLoop_length_le nlog M tok bw maxLen maxLen _ [] gen (by simp) hloop
  · cases h

/-- Witness for C1 on a concrete run. -/
theorem c1_witness : (["s"] : List String).length ≤ 1 :=
  c1_result_length_le_beam_width nlogLin constModel tokPlain "a" 1 1
    (by decide) (by decide) ["s"] (by rfl)

/-- C10: with `beam_width ≥ 1` and a seed passing validation, a normal
return carries at least one sequence: the loop can only exit after the
first candidate has been either kept active (so the loop went on) or
stored, and the expansion always repopulates the candidate pool. -/
theorem c10_result_nonempty (nlog : ℚ → ℚ) (M : Model) (tok : Tokenizer)
    (s : String) (bw maxLen : Nat) (hbw : 1 ≤ bw)
    (out : List String) (h : generator nlog M tok s bw maxLen = .ok out) :
    out ≠ [] := by
  unfold generator at h
  split at h
  · rename_i l hids
    cases h
    obtain ⟨-, gen, hloop, rfl⟩ := generatorIds_ok nlog M tok s bw maxLen l hids
    have hne : gen ≠ [] :=
      genLoop_ne_nil nlog M tok bw maxLen hbw maxLen _ [] gen (by simp) hloop
    simp [List.map_eq_nil_iff, hne]
  · cases h

/-- Witness for C10 on a concrete run. -/
theorem c10_witness : (["s"] : List String) ≠ [] :=
  c10_result_nonempty nlogLin constModel tokPlain "a" 1 1 (by decide) ["s"] (by rfl)

/-- C8: the decode loop always terminates, within `max_len` iterations:
the embedded generator runs the loop with fuel `max_len` and never reports
fuel exhaustion, because all live candidates share one length that grows by
one per iteration and a candidate is only active below `max_len`. -/
theorem c8_loop_terminates (nlog : ℚ → ℚ) (M : Model) (tok : Tokenizer)
    (s : String) (bw maxLen : Nat) (_hbw : 1 ≤ bw) (_hml : 1 ≤ maxLen) :
    generator nlog M tok s bw maxLen ≠ .error .fuelOut := by
  unfold generator
  split
  · simp
  · rename_i e hids
    unfold generatorIds at hids
    split at hids
    · cases hids
      simp
    · split at hids
      · cases hids
      · rename_i hloop
        exfalso
        have hsome := genLoop_isSome nlog M tok bw maxLen maxLen (tok.encode s).length
          [(tok.encode s, 0)] [] ?_ (by omega)
        · rw [hloop] at hsome
          simp at hsome
        · intro c hc
          rw [List.mem_singleton] at hc
          rw [hc]

/-- Witness for C8 on a concrete run. -/
theorem c8_witness :
    generator nlogLin constModel tokPlain "a" 1 5 ≠ .error .fuelOut :=
  c8_loop_terminates nlogLin constModel tokPlain "a" 1 5 (by decide) (by decide)

/-- Counterexample to C3: a call with `beam_width = 0` (non-positive) and a
nonempty, encodable seed returns normally with an empty result, and a call
with `max_len = 0` (non-positive) returns the seed-derived sequence
normally — neither fails with `InvalidInputError`. -/
theorem c3_counterexample :
    generator nlogLin constModel tokPlain "a" 0 5 = .ok [] ∧
    generator nlogLin constModel tokPlain "a" 2 0 = .ok ["s"] := by
  exact ⟨by rfl, by rfl⟩

/-- C3 as amended: the decoder validates only the seed text (empty seed
fails with the invalid-input error before any model call); `beam_width` and
`max_len` are not validated — a call with non-positive `beam_width` returns
normally with an empty result list, and a call with non-positive `max_len`
returns the seed-derived sequence (encoded seed, stripped and decoded)
normally. -/
theorem c3_validation (nlog : ℚ → ℚ) (M : Model) (tok : Tokenizer)
    (s : String) (bw maxLen : Nat) :
    (s.length = 0 → generator nlog M tok s bw maxLen = .error .invalidInput) ∧
    (s.length ≠ 0 → generator nlog M tok s 0 maxLen = .ok []) ∧
    (s.length ≠ 0 → 1 ≤ bw → generator nlog M tok s bw 0 =
      .ok [tok.decode (stripEos tok.eos_token_id (tok.encode s))]) := by
  refine ⟨?_, ?_, ?_⟩
  · intro hs
    unfold generator generatorIds
    rw [if_pos hs]
  · intro hs
    have hloop : ∀ fuel all gen, genLoop nlog M tok 0 maxLen fuel all gen =
        some (partitionIds tok.eos_token_id maxLen 0 all gen).2 := by
      intro fuel all gen
      have hcond : (partitionIds tok.eos_token_id maxLen 0 all gen).1 = [] ∨
          0 ≤ (partitionIds tok.eos_token_id maxLen 0 all gen).2.length :=
        Or.inr (Nat.zero_le _)
      cases fuel with
      | zero =>
        unfold genLoop
        rw [if_pos hcond]
      | succ n =>
        unfold genLoop
        rw [if_pos hcond]
    unfold generator generatorIds
    rw [if_neg hs, hloop]
    have hgen : (partitionIds tok.eos_token_id maxLen 0 [(tok.encode s, 0)] []).2 = [] :=
      partition_gen_bw0 tok.eos_token_id maxLen [(tok.encode s, 0)] ([], [])
    rw [hgen]
    rfl
  · intro hs hbw
    have hpart : partitionIds tok.eos_token_id 0 bw [(tok.encode s, 0)] [] =
        ([], [tok.encode s]) := by
      unfold partitionIds
      rw [List.foldl_cons, List.foldl_nil]
      unfold partStep
      rw [if_neg (fun h => Nat.not_lt_zero _ h.2), if_pos]
      · rfl
      · exact hbw
    have hloop : genLoop nlog M tok bw 0 0 [(tok.encode s, 0)] [] =
        some [tok.encode s] := by
      unfold genLoop
      rw [hpart]
      rw [if_pos (Or.inl rfl)]
    unfold generator generatorIds
    rw [if_neg hs, hloop]
    rfl

/-- Witness for C3's amended statement on concrete runs. -/
theorem c3_witness :
    generator nlogLin constModel tokPlain "" 2 5 = .error .invalidInput ∧
    generator nlogLin constModel tokPlain "ab" 0 7 = .ok [] ∧
    generator nlogLin constModel tokPlain "ab" 2 0 =
      .ok [tokPlain.decode (stripEos tokPlain.eos_token_id (tokPlain.encode "ab"))] :=
  ⟨(c3_validation nlogLin constModel tokPlain "" 2 5).1 rfl,
   (c3_validation nlogLin constModel tokPlain "ab" 0 7).2.1 (by decide),
   (c3_validation nlogLin constModel tokPlain "ab" 2 0).2.2 (by decide) (by decide)⟩

/-- Counterexample to C4: both vocab ids 0 and 1 are offered with equal
probability `1/2` to a capacity-one buffer; the buffer retains id 1, the
higher one, not the lower. -/
theorem c4_counterexample :
    topK (fun _ => mkRat 1 2) 2 1 3 = [(1, mkRat 1 2)] ∧
    topK (fun _ => mkRat 1 2) 2 1 3 ≠ [(0, mkRat 1 2)] := by
  decide

/-- C4 as amended: ties on probability are broken toward the HIGHER vocab
id.  With capacity one the retained entry is a maximiser of the
probability, and every id achieving the maximum is at most the retained id;
in general an offer equal to the buffer's current minimum evicts the
minimum and retains the newly offered pair (the vocab scan of line 114 is
ascending, so the later — higher — id wins). -/
theorem c4_tie_break_highest :
    (∀ (pred : Nat → ℚ) (k e : Nat), (∀ v < k + 1, 0 ≤ pred v) →
      ∃ m, m < k + 1 ∧ topK pred (k + 1) 1 e = [(m, pred m)] ∧
        (∀ j < k + 1, pred j ≤ pred m) ∧ (∀ j < k + 1, pred j = pred m → j ≤ m)) ∧
    (∀ (i v : Nat) (p : ℚ) (rest : List Entry), (∀ e ∈ rest, p < e.2) →
      bufferOffer ((i, p) :: rest) v p = (v, p) :: rest) :=
  ⟨fun pred k e hp => topK_one_char pred e k hp, bufferOffer_eq_min_evicts⟩

/-- Witness for C4's amended statement on concrete buffers. -/
theorem c4_witness :
    (∃ m, m < 1 + 1 ∧ topK (fun _ => mkRat 1 2) (1 + 1) 1 3 = [(m, mkRat 1 2)] ∧
      (∀ j < 1 + 1, mkRat 1 2 ≤ mkRat 1 2) ∧
      (∀ j < 1 + 1, mkRat 1 2 = mkRat 1 2 → j ≤ m)) ∧
    bufferOffer ((0, mkRat 1 2) :: [(5, 1)]) 7 (mkRat 1 2) =
      (7, mkRat 1 2) :: [(5, 1)] :=
  ⟨c4_tie_break_highest.1 (fun _ => mkRat 1 2) 1 3
      (fun v _ => show (0 : ℚ) ≤ mkRat 1 2 by decide),
   c4_tie_break_highest.2 0 7 (mkRat 1 2) [(5, 1)] (by decide)⟩

/-- Counterexample to C5: an offered probability exactly equal to the
buffer's current minimum is NOT discarded — it evicts the minimum entry and
replaces its vocab id. -/
theorem c5_counterexample :
    bufferOffer [(0, mkRat 1 2)] 1 (mkRat 1 2) = [(1, mkRat 1 2)] ∧
    bufferOffer [(0, mkRat 1 2)] 1 (mkRat 1 2) ≠ [(0, mkRat 1 2)] := by
  decide

/-- C5 as amended: every offer keeps the buffer sorted ascending on
probability (so every buffer the top-k scan builds is sorted), and an
offered probability STRICTLY below the current minimum is discarded without
modifying the buffer; an offer equal to the minimum instead evicts it. -/
theorem c5_buffer_invariant :
    (∀ (buf : List Entry) (v : Nat) (p : ℚ), BufSorted buf →
      BufSorted (bufferOffer buf v p)) ∧
    (∀ (pred : Nat → ℚ) (n bw eos : Nat), BufSorted (topK pred n bw eos)) ∧
    (∀ (buf : List Entry) (v : Nat) (p : ℚ), p < (buf.headD (0, 0)).2 →
      bufferOffer buf v p = buf) :=
  ⟨bufferOffer_sorted, topK_sorted, bufferOffer_of_lt⟩

/-- Witness for C5's amended statement on concrete buffers. -/
theorem c5_witness :
    BufSorted (bufferOffer [(3, (0 : ℚ)), (2, 1)] 1 1) ∧
    BufSorted (topK (fun _ => mkRat 1 2) 4 2 1) ∧
    bufferOffer [(3, (1 : ℚ)), (2, 2)] 1 0 = [(3, 1), (2, 2)] :=
  ⟨c5_buffer_invariant.1 [(3, 0), (2, 1)] 1 1 (by
      unfold BufSorted
      exact List.pairwise_cons.2 ⟨by intro b hb; simp at hb; rw [hb]; norm_num,
        List.pairwise_singleton _ _⟩),
   c5_buffer_invariant.2.1 (fun _ => mkRat 1 2) 4 2 1,
   c5_buffer_invariant.2.2 [(3, 1), (2, 2)] 1 0 (by norm_num)⟩

/-- Counterexample to C6: with `max_len = 1` and a seed whose tokenization
`[2, 3, 2]` has length 3, the decoder returns that sequence unchanged —
its pre-stripping (and post-stripping) length 3 exceeds `max_len`. -/
theorem c6_counterexample :
    generatorIds nlogLin constModel tokPlain "a" 1 1 = .ok [[2, 3, 2]] ∧
    ¬ ([2, 3, 2] : List Nat).length ≤ 1 := by
  exact ⟨by rfl, by decide⟩

/-- C6 as amended: every returned sequence, taken before eos stripping, has
length at most `max(max_len, length of the encoded seed)`: candidates grow
by one token per step and are only extended below `max_len`, but a seed
already at or above `max_len` is returned at its own length. -/
theorem c6_length_le_max (nlog : ℚ → ℚ) (M : Model) (tok : Tokenizer)
    (s : String) (bw maxLen : Nat) (out : List (List Nat))
    (h : generatorIds nlog M tok s bw maxLen = .ok out) :
    ∀ o ∈ out, ∃ ids, o = stripEos tok.eos_token_id ids ∧
      ids.length ≤ max maxLen (tok.encode s).length := by
  obtain ⟨-, gen, hloop, hout⟩ := generatorIds_ok nlog M tok s bw maxLen out h
  subst hout
  intro o ho
  rcases List.mem_map.1 ho with ⟨ids, hids, rfl⟩
  refine ⟨ids, rfl, ?_⟩
  refine genLoop_inv nlog M tok bw maxLen
    (fun l => l.length ≤ max maxLen (tok.encode s).length)
    ?_ maxLen _ [] gen ?_ ?_ hloop ids hids
  · intro l v _ hlen _
    rw [List.length_append]
    have hle := le_max_left maxLen (tok.encode s).length
    simp only [List.length_singleton]
    omega
  · intro c hc
    rw [List.mem_singleton] at hc
    rw [hc]
    exact le_max_right _ _
  · intro l hl
    cases hl

/-- Witness for C6's amended statement on a concrete run. -/
theorem c6_witness :
    ∃ ids, ([2, 3, 2] : List Nat) = stripEos tokPlain.eos_token_id ids ∧
      ids.length ≤ max 1 (tokPlain.encode "a").length :=
  c6_length_le_max nlogLin constModel tokPlain "a" 1 1 [[2, 3, 2]] (by rfl)
    [2, 3, 2] (List.mem_singleton.2 rfl)

/-- A single-token (eos-free) encoder over the four-token vocabulary. -/
def tokShort : Tokenizer := ⟨0, 1, 4, fun _ => [2], fun _ => "s"⟩

/-- Stripping does not change a sequence that does not end in eos. -/
theorem stripEos_of_ne (eos : Nat) (ids : List Nat)
    (h : ids.getLast? ≠ some eos) : stripEos eos ids = ids := by
  unfold stripEos
  rw [if_neg h]

/-- If a sequence is either the seed (whose encoding does not end in two
eos tokens) or an extension of a sequence not ending in eos, then stripping
one trailing eos leaves a sequence not ending in eos. -/
theorem stripEos_getLast_ne (eos : Nat) (seed ids : List Nat)
    (hseed : ∀ t, seed ≠ t ++ [eos, eos])
    (hQ : ids = seed ∨ ∃ pre v, ids = pre ++ [v] ∧ pre.getLast? ≠ some eos) :
    (stripEos eos ids).getLast? ≠ some eos := by
  rcases hQ with rfl | ⟨pre, v, rfl, hpre⟩
  · by_cases h1 : ids.getLast? = some eos
    · unfold stripEos
      rw [if_pos h1]
      intro h2
      obtain ⟨t0, ht0⟩ := List.getLast?_eq_some_iff.mp h1
      rw [ht0, List.dropLast_concat] at h2
      obtain ⟨t1, ht1⟩ := List.getLast?_eq_some_iff.mp h2
      refine hseed t1 ?_
      rw [ht0, ht1, List.append_assoc]
      rfl
    · unfold stripEos
      rw [if_neg h1]
      exact h1
  · by_cases hv : v = eos
    · subst hv
      unfold stripEos
      rw [if_pos (List.getLast?_concat pre), List.dropLast_concat]
      exact hpre
    · unfold stripEos
      rw [if_neg (by rw [List.getLast?_concat]; simp [hv])]
      rw [List.getLast?_concat]
      simp [hv]

/-- Counterexample to C9: the encoder of `tokDoubleEos` produces the seed
`[2, 1, 1]`, ending in two eos tokens (`eos = 1`); the seed completes
immediately, one eos is stripped, and the returned sequence `[2, 1]` still
ends with eos — and stripping it again changes it, so stripping is not
idempotent on the returned value. -/
theorem c9_counterexample :
    generatorIds nlogLin constModel tokDoubleEos "a" 1 5 = .ok [[2, 1]] ∧
    ([2, 1] : List Nat).getLast? = some tokDoubleEos.eos_token_id ∧
    stripEos tokDoubleEos.eos_token_id [2, 1] ≠ [2, 1] := by
  exact ⟨by rfl, by rfl, by decide⟩

/-- C9 as amended: post-processing removes exactly one trailing eos when
present, and — provided the encoded seed does not end in two consecutive
eos tokens — no returned sequence ends with eos and stripping the returned
sequences again leaves them unchanged.  (Generated extensions append to
candidates whose last token is not eos, so only the seed can carry a double
eos.) -/
theorem c9_strip_no_trailing_eos (nlog : ℚ → ℚ) (M : Model) (tok : Tokenizer)
    (s : String) (bw maxLen : Nat) (out : List (List Nat))
    (hseed : ∀ t, tok.encode s ≠ t ++ [tok.eos_token_id, tok.eos_token_id])
    (h : generatorIds nlog M tok s bw maxLen = .ok out) :
    (∀ ids : List Nat, ids.getLast? = some tok.eos_token_id →
      stripEos tok.eos_token_id ids = ids.dropLast) ∧
    ∀ o ∈ out, o.getLast? ≠ some tok.eos_token_id ∧ stripEos tok.eos_token_id o = o := by
  constructor
  · intro ids h1
    unfold stripEos
    rw [if_pos h1]
  · obtain ⟨-, gen, hloop, hout⟩ := generatorIds_ok nlog M tok s bw maxLen out h
    subst hout
    intro o ho
    rcases List.mem_map.1 ho with ⟨ids, hids, rfl⟩
    have hQ := genLoop_inv nlog M tok bw maxLen
      (fun l => l = tok.encode s ∨
        ∃ pre v, l = pre ++ [v] ∧ pre.getLast? ≠ some tok.eos_token_id)
      (fun l v hlast _ _ => Or.inr ⟨l, v, rfl, hlast⟩)
      maxLen _ [] gen ?_ ?_ hloop ids hids
    · have hne := stripEos_getLast_ne tok.eos_token_id (tok.encode s) ids hseed hQ
      exact ⟨hne, stripEos_of_ne _ _ hne⟩
    · intro c hc
      rw [List.mem_singleton] at hc
      exact Or.inl (by rw [hc])
    · intro l hl
      cases hl

/-- Witness for C9's amended statement on a concrete run. -/
theorem c9_witness :
    (∀ ids : List Nat, ids.getLast? = some tokShort.eos_token_id →
      stripEos tokShort.eos_token_id ids = ids.dropLast) ∧
    ∀ o ∈ ([[2]] : List (List Nat)), o.getLast? ≠ some tokShort.eos_token_id ∧
      stripEos tokShort.eos_token_id o = o :=
  c9_strip_no_trailing_eos nlogLin constModel tokShort "a" 1 1 [[2]]
    (fun t h => by
      have h2 := congrArg List.length h
      simp [tokShort] at h2)
    (by rfl)

/-- C2: every candidate created by an expansion step extends a parent from
the active list by one token.  Unless it was created from the untouched
sentinel accumulator, the appended token `v` and the probability `p` fed to
`nlog` come from one and the same selected buffer entry, and that entry is
either the zero-probability `(eos, 0)` sentinel or the model's probability
of `v` at the parent's last un-padded position — the chosen next-token
probability.  The child's score is `nlog(p) + parent score`, so whenever
the chosen `p` lies in `(0, 1]` (where `-log p ≥ 0`) the child's score is
at least its parent's. -/
theorem c2_score_monotone (nlog : ℚ → ℚ) (M : Model) (tok : Tokenizer) (bw : Nat)
    (active : List (List Nat × ℚ)) (hne : active ≠ [])
    (hnlog : ∀ q : ℚ, 0 < q → q ≤ 1 → 0 ≤ nlog q) :
    ∀ c ∈ expandStep nlog M tok bw active, ∃ i, i < active.length ∧
      ((c.1 = (active.getD i ([], 0)).1 ++ [tok.eos_token_id] ∧ c.2 = 999999999) ∨
       ∃ v p, c.1 = (active.getD i ([], 0)).1 ++ [v] ∧
         c.2 = nlog p + (active.getD i ([], 0)).2 ∧
         ((v = tok.eos_token_id ∧ p = 0) ∨ (v < tok.vocab_size ∧
           p = predFor M (padBatch tok.pad_token_id active) active i v)) ∧
         (0 < p → p ≤ 1 → (active.getD i ([], 0)).2 ≤ c.2)) := by
  intro c hc
  unfold expandStep at hc
  rcases List.mem_map.1 hc with ⟨s, hs, rfl⟩
  have hP : ∀ j, ∀ x ∈ (buildTV M tok bw (padBatch tok.pad_token_id active) active).getD j [],
      x = (tok.eos_token_id, (0 : ℚ)) ∨ ∃ v, v < tok.vocab_size ∧
        x = (v, predFor M (padBatch tok.pad_token_id active) active j v) := by
    intro j x hx
    by_cases hj : j < active.length
    · rw [buildTV_getD _ _ _ _ _ _ hj] at hx
      exact mem_topK _ _ _ _ x hx
    · rw [List.getD_eq_default] at hx
      · cases hx
      · rw [buildTV_length]
        omega
  rcases globalSelect_entry nlog tok.eos_token_id bw _ active
      (fun j x => x = (tok.eos_token_id, (0 : ℚ)) ∨ ∃ v, v < tok.vocab_size ∧
        x = (v, predFor M (padBatch tok.pad_token_id active) active j v))
      hP (fun j => Or.inl rfl) s hs with heq | ⟨j, e, hj, hPe, heq⟩
  · subst heq
    exact ⟨0, List.length_pos.2 hne, Or.inl ⟨rfl, rfl⟩⟩
  · subst heq
    rw [buildTV_length] at hj
    refine ⟨j, hj, Or.inr ?_⟩
    rcases hPe with heq2 | ⟨v, hv, heq2⟩
    · subst heq2
      exact ⟨tok.eos_token_id, 0, rfl, rfl, Or.inl ⟨rfl, rfl⟩,
        fun h1 _ => absurd h1 (lt_irrefl 0)⟩
    · subst heq2
      refine ⟨v, predFor M (padBatch tok.pad_token_id active) active j v,
        rfl, rfl, Or.inr ⟨hv, rfl⟩, ?_⟩
      intro h1 h2
      exact le_add_of_nonneg_left (hnlog _ h1 h2)

/-- Concrete evaluation of one expansion step: the constant-probability
model extends the sole candidate `[2]` by the highest vocab id `3`. -/
theorem expandStep_concrete :
    expandStep nlogLin constModel tokPlain 1 [([2], (0 : ℚ))] =
      [(([2] : List Nat) ++ [3], nlogLin (mkRat 1 2) + 0)] := by
  have hlt : nlogLin (mkRat 1 2) + (0 : ℚ) < 999999999 := by
    unfold nlogLin
    norm_num [mkRat]
  have htop : topK (predFor constModel (padBatch tokPlain.pad_token_id [([2], (0 : ℚ))])
      [([2], (0 : ℚ))] 0) tokPlain.vocab_size 1 tokPlain.eos_token_id =
      [(3, mkRat 1 2)] := by
    decide
  have hscan : scanBeams nlogLin tokPlain.eos_token_id [[(3, mkRat 1 2)]]
      [([2], (0 : ℚ))] = ⟨0, 3, nlogLin (mkRat 1 2) + 0⟩ := by
    unfold scanBeams
    rw [show List.range ([[(3, mkRat 1 2)]] : List (List Entry)).length = [0] from rfl,
      List.foldl_cons, List.foldl_nil]
    show (if nlogLin (mkRat 1 2) + 0 < 999999999
        then (⟨0, 3, nlogLin (mkRat 1 2) + 0⟩ : Sel)
        else ⟨0, tokPlain.eos_token_id, 999999999⟩) = _
    rw [if_pos hlt]
  have hsel : globalSelect nlogLin tokPlain.eos_token_id 1 [[(3, mkRat 1 2)]]
      [([2], (0 : ℚ))] = [⟨0, 3, nlogLin (mkRat 1 2) + 0⟩] := by
    unfold globalSelect selectRound
    rw [show List.range 1 = [0] from rfl, List.foldl_cons, List.foldl_nil]
    rw [hscan]
    rfl
  show (globalSelect nlogLin tokPlain.eos_token_id 1
      (buildTV constModel tokPlain 1 (padBatch tokPlain.pad_token_id [([2], (0 : ℚ))])
        [([2], (0 : ℚ))]) [([2], (0 : ℚ))]).map
      (fun sel => (([([2], (0 : ℚ))].getD sel.beam ([], 0)).1 ++ [sel.vocab], sel.value)) = _
  rw [show buildTV constModel tokPlain 1 (padBatch tokPlain.pad_token_id [([2], (0 : ℚ))])
        [([2], (0 : ℚ))] =
      [topK (predFor constModel (padBatch tokPlain.pad_token_id [([2], (0 : ℚ))])
        [([2], (0 : ℚ))] 0) tokPlain.vocab_size 1 tokPlain.eos_token_id] from rfl,
    htop, hsel]
  rfl

/-- Witness for C2 on a concrete expansion step. -/
theorem c2_witness :
    ∃ i, i < ([([2], (0 : ℚ))] : List (List Nat × ℚ)).length ∧
      (((([2] : List Nat) ++ [3]) =
          (([([2], (0 : ℚ))] : List (List Nat × ℚ)).getD i ([], 0)).1 ++
            [tokPlain.eos_token_id] ∧
        nlogLin (mkRat 1 2) + 0 = 999999999) ∨
       ∃ v p, (([2] : List Nat) ++ [3]) =
          (([([2], (0 : ℚ))] : List (List Nat × ℚ)).getD i ([], 0)).1 ++ [v] ∧
        nlogLin (mkRat 1 2) + 0 =
          nlogLin p + (([([2], (0 : ℚ))] : List (List Nat × ℚ)).getD i ([], 0)).2 ∧
        ((v = tokPlain.eos_token_id ∧ p = 0) ∨ (v < tokPlain.vocab_size ∧
          p = predFor constModel (padBatch tokPlain.pad_token_id [([2], (0 : ℚ))])
            [([2], (0 : ℚ))] i v)) ∧
        (0 < p → p ≤ 1 →
          (([([2], (0 : ℚ))] : List (List Nat × ℚ)).getD i ([], 0)).2 ≤
            nlogLin (mkRat 1 2) + 0)) :=
  c2_score_monotone nlogLin constModel tokPlain 1 [([2], 0)] (by simp)
    (fun q h1 h2 => by unfold nlogLin; linarith)
    (([2] : List Nat) ++ [3], nlogLin (mkRat 1 2) + 0)
    (by rw [expandStep_concrete]; exact List.mem_singleton.2 rfl)

/-- C7: with `beam_width = 1` the expansion step is greedy: a single active
candidate is extended by exactly one token, that token's probability (read
at the candidate's last un-padded position) is maximal over the vocabulary,
and its score grows by `nlog` of that probability.  The finiteness
hypothesis states that the combined value beats the scan's `999999999`
sentinel, as the real `-log` always does in the source's regime. -/
theorem c7_greedy_beam_one (nlog : ℚ → ℚ) (M : Model) (tok : Tokenizer)
    (s : List Nat) (sc : ℚ) (hn : 0 < tok.vocab_size)
    (hp : ∀ v < tok.vocab_size,
      0 ≤ predFor M (padBatch tok.pad_token_id [(s, sc)]) [(s, sc)] 0 v)
    (hfin : ∀ v < tok.vocab_size,
      nlog (predFor M (padBatch tok.pad_token_id [(s, sc)]) [(s, sc)] 0 v) + sc
        < 999999999) :
    ∃ m, m < tok.vocab_size ∧
      expandStep nlog M tok 1 [(s, sc)] =
        [(s ++ [m],
          nlog (predFor M (padBatch tok.pad_token_id [(s, sc)]) [(s, sc)] 0 m) + sc)] ∧
      ∀ j < tok.vocab_size,
        predFor M (padBatch tok.pad_token_id [(s, sc)]) [(s, sc)] 0 j ≤
          predFor M (padBatch tok.pad_token_id [(s, sc)]) [(s, sc)] 0 m := by
  obtain ⟨k, hk⟩ := Nat.exists_eq_succ_of_ne_zero (Nat.pos_iff_ne_zero.mp hn)
  obtain ⟨m, hm, htop, hmax, htie⟩ :=
    topK_one_char (predFor M (padBatch tok.pad_token_id [(s, sc)]) [(s, sc)] 0)
      tok.eos_token_id k (fun v hv => hp v (by omega))
  have hm' : m < tok.vocab_size := by omega
  have hscan : scanBeams nlog tok.eos_token_id
      [[(m, predFor M (padBatch tok.pad_token_id [(s, sc)]) [(s, sc)] 0 m)]]
      [(s, sc)] =
      ⟨0, m, nlog (predFor M (padBatch tok.pad_token_id [(s, sc)]) [(s, sc)] 0 m) + sc⟩ := by
    unfold scanBeams
    rw [show List.range ([[(m, predFor M (padBatch tok.pad_token_id [(s, sc)])
        [(s, sc)] 0 m)]] : List (List Entry)).length = [0] from rfl,
      List.foldl_cons, List.foldl_nil]
    show (if nlog (predFor M (padBatch tok.pad_token_id [(s, sc)]) [(s, sc)] 0 m) + sc
          < 999999999
        then (⟨0, m, nlog (predFor M (padBatch tok.pad_token_id [(s, sc)])
          [(s, sc)] 0 m) + sc⟩ : Sel)
        else ⟨0, tok.eos_token_id, 999999999⟩) = _
    rw [if_pos (hfin m hm')]
  have hsel : globalSelect nlog tok.eos_token_id 1
      [[(m, predFor M (padBatch tok.pad_token_id [(s, sc)]) [(s, sc)] 0 m)]]
      [(s, sc)] =
      [⟨0, m, nlog (predFor M (padBatch tok.pad_token_id [(s, sc)]) [(s, sc)] 0 m) + sc⟩] := by
    unfold globalSelect selectRound
    rw [show List.range 1 = [0] from rfl, List.foldl_cons, List.foldl_nil]
    rw [hscan]
    rfl
  refine ⟨m, hm', ?_, fun j hj => hmax j (by omega)⟩
  show (globalSelect nlog tok.eos_token_id 1
      (buildTV M tok 1 (padBatch tok.pad_token_id [(s, sc)]) [(s, sc)]) [(s, sc)]).map
      (fun sel => (([(s, sc)].getD sel.beam ([], 0)).1 ++ [sel.vocab], sel.value)) = _
  rw [show buildTV M tok 1 (padBatch tok.pad_token_id [(s, sc)]) [(s, sc)] =
      [topK (predFor M (padBatch tok.pad_token_id [(s, sc)]) [(s, sc)] 0)
        tok.vocab_size 1 tok.eos_token_id] from rfl,
    hk, htop, hsel]
  rfl

/-- Witness for C7 on a concrete greedy step. -/
theorem c7_witness :
    ∃ m, m < tokPlain.vocab_size ∧
      expandStep nlogLin constModel tokPlain 1 [([2], (0 : ℚ))] =
        [(([2] : List Nat) ++ [m],
          nlogLin (predFor constModel (padBatch tokPlain.pad_token_id [([2], (0 : ℚ))])
            [([2], (0 : ℚ))] 0 m) + 0)] ∧
      ∀ j < tokPlain.vocab_size,
        predFor constModel (padBatch tokPlain.pad_token_id [([2], (0 : ℚ))])
          [([2], (0 : ℚ))] 0 j ≤
        predFor constModel (padBatch tokPlain.pad_token_id [([2], (0 : ℚ))])
          [([2], (0 : ℚ))] 0 m :=
  c7_greedy_beam_one nlogLin constModel tokPlain [2] 0 (by decide)
    (fun v _ => show (0 : ℚ) ≤ mkRat 1 2 by decide)
    (fun v _ => by
      show nlogLin (mkRat 1 2) + 0 < 999999999
      unfold nlogLin
      norm_num [mkRat])

end LMP
